import Mathlib

/-!
Shallow embedding of the `quill_delta_pdf` conversion pipeline
(`src/delta.rs` data model and `src/lib.rs` conversion logic).

Rust `String`s are modelled as `List Char`; `url::Url` is modelled by the
only part of its interface the code consumes, namely `path_segments()`;
`genpdf::Document` is modelled as the ordered list of blocks pushed to it;
`genpdf::elements::Image::from_path` is modelled as the resolved path
handle (image byte decoding is outside the conversion pipeline).
The `u32` counters of `write_to_pdf` are modelled as `Nat` with explicit
reduction modulo `2 ^ 32` at every update.
-/

namespace QuillDeltaPdf

/-- Rust `String` / `&str`, modelled as a list of characters. -/
abbrev Str := List Char

/-- The `2 ^ 32` modulus of the Rust `u32` counters in `write_to_pdf`. -/
def u32Mod : Nat := 2 ^ 32

/-- `genpdf::style::Style`: bold flag, italic flag, optional font size.
`Style::new()` leaves every field unset. -/
structure Style where
  bold : Bool := false
  italic : Bool := false
  font_size : Option Nat := none
deriving DecidableEq

/-- `Style::new()`. -/
def Style.new : Style := {}

/-- `Style::set_bold`. -/
def Style.set_bold (s : Style) : Style := { s with bold := true }

/-- `Style::set_italic`. -/
def Style.set_italic (s : Style) : Style := { s with italic := true }

/-- `Style::set_font_size`. -/
def Style.set_font_size (s : Style) (n : Nat) : Style := { s with font_size := some n }

/-- `delta.rs`: `ListType`. -/
inductive ListType
  | bullet
  | ordered
deriving DecidableEq

/-- `delta.rs`: `Attribute`. -/
inductive Attribute
  | bold (b : Bool)
  | italic (b : Bool)
  | header (level : Nat)
  | list (t : ListType)
deriving DecidableEq

/-- `url::Url`, modelled by the only method the code calls on it:
`path_segments()`, which yields the segments of the URL path when the URL
can be a base, and `None` otherwise. -/
structure Url where
  path_segments : Option (List Str)
deriving DecidableEq

/-- `delta.rs`: `Image` (an object holding the image URL). -/
structure Image where
  image : Url
deriving DecidableEq

/-- `delta.rs`: `DeltaType` (untagged content: a string or an image object). -/
inductive DeltaType
  | string (text : Str)
  | image (img : Image)
deriving DecidableEq

/-- `delta.rs`: `Change`. -/
inductive Change
  | insert (d : DeltaType)
  | delete (d : DeltaType)
  | retain (d : DeltaType)
deriving DecidableEq

/-- `delta.rs`: `Op` (a change plus optional attribute list). -/
structure Op where
  change : Change
  attributes : Option (List Attribute)
deriving DecidableEq

/-- `delta.rs`: `Delta`. -/
structure Delta where
  ops : List Op
deriving DecidableEq

/-- `genpdf::style::StyledString`. -/
structure StyledString where
  s : Str
  style : Style
deriving DecidableEq

/-- `lib.rs`: internal `PdfElement` (a styled string or a loaded image,
the latter modelled by its resolved path). -/
inductive PdfElement
  | string (ss : StyledString)
  | image (path : Str)
deriving DecidableEq

/-- `lib.rs`: the `DeltaPdfError` taxonomy. `pdfError` stands for the
wrapped `genpdf` error and is unreachable in this model because image
byte loading is out of scope. -/
inductive DeltaPdfError
  | imageUrlError
  | imagePathNotSet
  | pdfError
deriving DecidableEq

/-- `lib.rs`: the `DeltaPdf` struct (parsed delta plus optional image dir). -/
structure DeltaPdf where
  delta : Delta
  images_path : Option Str

/-- The `strings.last_mut()` mutation idiom: apply `f` to the final element
when that element is a `PdfElement.string`; otherwise leave the list as is. -/
def modifyLastString (f : StyledString → StyledString) : List PdfElement → List PdfElement
  | [] => []
  | [PdfElement.string ss] => [PdfElement.string (f ss)]
  | [PdfElement.image p] => [PdfElement.image p]
  | e :: rest => e :: modifyLastString f rest

/-- The `if let Some(PdfElement::String(last)) = strings.last_mut()` test:
the final element when it is a `PdfElement.string`. -/
def lastString? : List PdfElement → Option StyledString
  | [] => none
  | [PdfElement.string ss] => some ss
  | [PdfElement.image _] => none
  | _ :: rest => lastString? rest

/-- `lib.rs` `set_heading`: set the font size of the last emitted string. -/
def set_heading (strings : List PdfElement) (font_size : Nat) : List PdfElement :=
  modifyLastString (fun last => { last with style := last.style.set_font_size font_size }) strings

/-- `last.s.rfind('\n').map_or(0, |x| x + 1)` followed by `insert_str`:
insert `pfx` immediately after the last newline of `s`, or at the start
of `s` when it contains none. -/
def insertAfterLastNewline (s pfx : Str) : Str :=
  (s.reverse.dropWhile (fun c => c != '\n')).reverse ++ pfx ++
    (s.reverse.takeWhile (fun c => c != '\n')).reverse

/-- `lib.rs` `set_prefix`: splice `pfx` into the last emitted string. -/
def setMarker (strings : List PdfElement) (pfx : Str) : List PdfElement :=
  modifyLastString (fun last => { last with s := insertAfterLastNewline last.s pfx }) strings

/-- The `"• "` marker of `ListType::Bullet`. -/
def bulletMarker : Str := ['•', ' ']

/-- `format!("{}. ", n)`: the decimal ordinal marker of `ListType::Ordered`. -/
def ordinalMarker (n : Nat) : Str := (Nat.repr n).data ++ ['.', ' ']

/-- The mutable state of the first loop of `write_to_pdf`:
`pdf_elements`, `ordered_list_index` and `previous_lists`. -/
structure BuildState where
  pdf_elements : List PdfElement
  ordered_list_index : Nat
  previous_lists : Nat
deriving DecidableEq

/-- One iteration of the attribute loop of `write_to_pdf` (lines 163-199):
the running state is `(builder state, style, ordered_list_item)`. -/
def processAttribute (acc : BuildState × Style × Bool) (a : Attribute) : BuildState × Style × Bool :=
  match a with
  | .bold true => (acc.1, acc.2.1.set_bold, acc.2.2)
  | .italic true => (acc.1, acc.2.1.set_italic, acc.2.2)
  | .header 1 => ({ acc.1 with pdf_elements := set_heading acc.1.pdf_elements 18 }, acc.2.1, acc.2.2)
  | .header 2 => ({ acc.1 with pdf_elements := set_heading acc.1.pdf_elements 16 }, acc.2.1, acc.2.2)
  | .list .bullet =>
    ({ acc.1 with pdf_elements := setMarker acc.1.pdf_elements bulletMarker }, acc.2.1, acc.2.2)
  | .list .ordered =>
    let st := acc.1
    let st1 :=
      match lastString? st.pdf_elements with
      | some last =>
        if st.previous_lists / 2 % 2 == 0 || last.s.contains '\n' then
          { st with ordered_list_index := 1 }
        else st
      | none => st
    let st2 :=
      { st1 with pdf_elements := setMarker st1.pdf_elements (ordinalMarker st1.ordered_list_index) }
    ({ st2 with ordered_list_index := (st2.ordered_list_index + 1) % u32Mod }, acc.2.1, true)
  | _ => acc

/-- `PathBuf::join` for the relative file names this pipeline produces. -/
def pathJoin (base name : Str) : Str :=
  if base = [] then name
  else if base.getLast? = some '/' then base ++ name else base ++ '/' :: name

/-- One iteration of the op loop of `write_to_pdf` (lines 150-222): content
is extracted from insert, delete and retain alike; a string op folds its
attributes and pushes one styled string; an image op resolves its URL and
pushes one image; `previous_lists` shifts in the `ordered_list_item` bit. -/
def processOp (images_path : Option Str) (st : BuildState) (op : Op) :
    Except DeltaPdfError BuildState :=
  let delta_type :=
    match op.change with
    | .insert x => x
    | .delete x => x
    | .retain x => x
  match delta_type with
  | .string text =>
    let res :=
      match op.attributes with
      | some attrs => attrs.foldl processAttribute (st, Style.new, false)
      | none => (st, Style.new, false)
    .ok { res.1 with
      pdf_elements := res.1.pdf_elements ++ [PdfElement.string ⟨text, res.2.1⟩],
      previous_lists :=
        (res.1.previous_lists * 2 + (if res.2.2 then 1 else 0)) % u32Mod }
  | .image img =>
    match img.image.path_segments with
    | none => .error .imageUrlError
    | some segs =>
      match segs.getLast? with
      | none => .error .imageUrlError
      | some image_name =>
        match images_path with
        | none => .error .imagePathNotSet
        | some base =>
          .ok { st with
            pdf_elements := st.pdf_elements ++ [PdfElement.image (pathJoin base image_name)],
            previous_lists := (st.previous_lists * 2) % u32Mod }

/-- The op loop of `write_to_pdf`, threading the builder state; the `?`
operator aborts the whole conversion at the first error. -/
def buildLoop (images_path : Option Str) : BuildState → List Op → Except DeltaPdfError BuildState
  | st, [] => .ok st
  | st, op :: rest =>
    match processOp images_path st op with
    | .error e => .error e
    | .ok st2 => buildLoop images_path st2 rest

/-- The element-construction phase of `write_to_pdf` (its first loop),
started from an empty element list, `ordered_list_index = 1` and
`previous_lists = 0`. -/
def DeltaPdf.buildElements (d : DeltaPdf) : Except DeltaPdfError (List PdfElement) :=
  match buildLoop d.images_path ⟨[], 1, 0⟩ d.delta.ops with
  | .error e => .error e
  | .ok st => .ok st.pdf_elements

/-- A block pushed to the `genpdf::Document`: a paragraph of styled spans,
or an image with its fixed padding. -/
inductive Block
  | paragraph (spans : List StyledString)
  | image (path : Str) (padding : Nat)
deriving DecidableEq

/-- Rust `str::split('\n')`: always at least one (possibly empty) segment. -/
def splitNl : Str → List Str
  | [] => [[]]
  | c :: rest =>
    match splitNl rest with
    | [] => [[]]
    | l :: ls => if c = '\n' then [] :: l :: ls else (c :: l) :: ls

/-- The body of the inner `for line in lines` loop of the emission pass:
push the open paragraph and start a fresh one holding this line. -/
def emitLine (style : Style) (acc : List Block × List StyledString) (line : Str) :
    List Block × List StyledString :=
  (acc.1 ++ [Block.paragraph acc.2], [⟨line, style⟩])

/-- One iteration of the emission loop of `write_to_pdf` (lines 225-246):
the state is (blocks pushed so far, spans of the open paragraph). -/
def emitStep (acc : List Block × List StyledString) : PdfElement → List Block × List StyledString
  | PdfElement.string ss =>
    match splitNl ss.s with
    | [] => (acc.1, acc.2 ++ [⟨[], ss.style⟩])
    | line :: rest => rest.foldl (emitLine ss.style) (acc.1, acc.2 ++ [⟨line, ss.style⟩])
  | PdfElement.image path => (acc.1 ++ [Block.image path 1], acc.2)

/-- The emission loop of `write_to_pdf`, started from no pushed blocks and
an empty default paragraph. -/
def emitElements (elems : List PdfElement) : List Block × List StyledString :=
  elems.foldl emitStep ([], [])

/-- `lib.rs` `write_to_pdf`: build the elements, then emit them into the
document; the trailing open paragraph is pushed last. On an error the
document has not been touched, mirroring the `&mut Document` parameter. -/
def DeltaPdf.write_to_pdf (d : DeltaPdf) (document : List Block) :
    List Block × Except DeltaPdfError Unit :=
  match d.buildElements with
  | .error e => (document, .error e)
  | .ok elems =>
    let res := emitElements elems
    (document ++ res.1 ++ [Block.paragraph res.2], .ok ())

/-! ### Observation helpers used by the theorems -/

/-- Contiguous-subsequence test (used to state the spec's "contains the
literal marker" check). -/
def containsSeq (pat : Str) : Str → Bool
  | [] => pat.isEmpty
  | c :: rest => pat.isPrefixOf (c :: rest) || containsSeq pat rest

/-- The second-to-last element of the element list, when it is a string. -/
def secondToLastString? (es : List PdfElement) : Option StyledString :=
  lastString? es.dropLast

/-- Text of a paragraph: its span strings concatenated. -/
def paraText (ps : List StyledString) : Str := (ps.map StyledString.s).flatten

/-- Text of a block (an image block carries no text). -/
def blockText : Block → Str
  | Block.paragraph ps => paraText ps
  | Block.image _ _ => []

/-- Join a list of strings with a line break between consecutive entries
(the inverse of paragraph splitting). -/
def joinedNl : List Str → Str
  | [] => []
  | [x] => x
  | x :: xs => x ++ '\n' :: joinedNl xs

/-- The text accumulated by an emission state: pushed paragraph texts
followed by the open paragraph's text, joined with line breaks. -/
def accJoined (acc : List Block × List StyledString) : Str :=
  joinedNl (acc.1.map blockText ++ [paraText acc.2])

/-- A plain-text insert op with no attributes. -/
def mkTextOp (t : Str) : Op := ⟨Change.insert (DeltaType.string t), none⟩

/-- A `"\n"` insert op carrying `list: "ordered"`. -/
def nlOrderedOp : Op :=
  ⟨Change.insert (DeltaType.string ['\n']), some [Attribute.list ListType.ordered]⟩

/-- The alternating ordered-list pattern: each text op is immediately
followed by a `"\n"` op carrying `list: "ordered"`. -/
def orderedPairOps : List Str → List Op
  | [] => []
  | t :: ts => mkTextOp t :: nlOrderedOp :: orderedPairOps ts

/-- The elements the alternating ordered-list pattern builds: each text
receives the ordinal marker `n`, `n+1`, ..., each followed by a `"\n"`
element. -/
def orderedChunk (n : Nat) : List Str → List PdfElement
  | [] => []
  | t :: ts =>
    PdfElement.string ⟨ordinalMarker n ++ t, Style.new⟩ ::
      PdfElement.string ⟨['\n'], Style.new⟩ :: orderedChunk (n + 1) ts

/-- A text insert op that itself carries `list: "ordered"`. -/
def ordTextOp (t : Str) : Op :=
  ⟨Change.insert (DeltaType.string t), some [Attribute.list ListType.ordered]⟩

/-- A contiguous run of adjacent ordered text ops (no other op between). -/
def adjacentOrderedOps (ts : List Str) : List Op := ts.map ordTextOp

/-- The elements a contiguous adjacent ordered run builds: each marker
`k`, `k+1`, ... lands on the text of the *preceding* op in the run, and
the run's final text receives no marker. -/
def adjacentChunk (k : Nat) (u : Str) : List Str → List PdfElement
  | [] => [PdfElement.string ⟨u, Style.new⟩]
  | t :: ts =>
    PdfElement.string ⟨ordinalMarker k ++ u, Style.new⟩ :: adjacentChunk (k + 1) t ts

/-! ### The spec's canonical ordered-list reset policy, for comparison -/

/-- Modelled from the spec: the canonical ordered-list reset policy of
§4.4, which is absent from `src/` (the code implements a rolling
bit-history instead). Before emitting ordinal `n`, the text of the
second-to-last emitted element is inspected; if it does not contain the
literal prior-ordinal marker (with `n - 1` saturating at a floor of 1),
`n` is reset to 1; the marker of `n` is then applied to the last emitted
element and the counter is incremented. -/
def specOrderedStep (st : BuildState) : BuildState :=
  let n := st.ordered_list_index
  let marker := ordinalMarker (max (n - 1) 1)
  let keep :=
    match secondToLastString? st.pdf_elements with
    | some prev => containsSeq marker prev.s
    | none => false
  let n1 := if keep then n else 1
  { st with
    pdf_elements := setMarker st.pdf_elements (ordinalMarker n1),
    ordered_list_index := n1 + 1 }

/-- Modelled from the spec: the attribute interpreter with the canonical
§4.4 ordered-list policy in place of the code's bit-history policy; all
other attribute handling is as in the code. -/
def spec_processAttribute (acc : BuildState × Style × Bool) (a : Attribute) :
    BuildState × Style × Bool :=
  match a with
  | .list .ordered => (specOrderedStep acc.1, acc.2.1, true)
  | _ => processAttribute acc a

/-- Modelled from the spec: the op walk using the canonical §4.4
ordered-list policy. -/
def spec_processOp (images_path : Option Str) (st : BuildState) (op : Op) :
    Except DeltaPdfError BuildState :=
  let delta_type :=
    match op.change with
    | .insert x => x
    | .delete x => x
    | .retain x => x
  match delta_type with
  | .string text =>
    let res :=
      match op.attributes with
      | some attrs => attrs.foldl spec_processAttribute (st, Style.new, false)
      | none => (st, Style.new, false)
    .ok { res.1 with
      pdf_elements := res.1.pdf_elements ++ [PdfElement.string ⟨text, res.2.1⟩],
      previous_lists :=
        (res.1.previous_lists * 2 + (if res.2.2 then 1 else 0)) % u32Mod }
  | .image img =>
    match img.image.path_segments with
    | none => .error .imageUrlError
    | some segs =>
      match segs.getLast? with
      | none => .error .imageUrlError
      | some image_name =>
        match images_path with
        | none => .error .imagePathNotSet
        | some base =>
          .ok { st with
            pdf_elements := st.pdf_elements ++ [PdfElement.image (pathJoin base image_name)],
            previous_lists := (st.previous_lists * 2) % u32Mod }

/-- Modelled from the spec: the op loop under the canonical §4.4 policy. -/
def spec_buildLoop (images_path : Option Str) :
    BuildState → List Op → Except DeltaPdfError BuildState
  | st, [] => .ok st
  | st, op :: rest =>
    match spec_processOp images_path st op with
    | .error e => .error e
    | .ok st2 => spec_buildLoop images_path st2 rest

/-- Modelled from the spec: element construction under the canonical §4.4
ordered-list reset policy. -/
def spec_buildElements (d : DeltaPdf) : Except DeltaPdfError (List PdfElement) :=
  match spec_buildLoop d.images_path ⟨[], 1, 0⟩ d.delta.ops with
  | .error e => .error e
  | .ok st => .ok st.pdf_elements

/-! ### Concrete documents used by individual claims -/

/-- The ops of the C2 counterexample document. -/
def c2ops : List Op := [mkTextOp ['A'], nlOrderedOp, mkTextOp ['B'], nlOrderedOp]

/-- What the code builds from `c2ops`. -/
def c2codeElems : List PdfElement :=
  [PdfElement.string ⟨['1', '.', ' ', 'A'], Style.new⟩,
    PdfElement.string ⟨['\n'], Style.new⟩,
    PdfElement.string ⟨['2', '.', ' ', 'B'], Style.new⟩,
    PdfElement.string ⟨['\n'], Style.new⟩]

/-- What the spec's canonical §4.4 policy builds from `c2ops`. -/
def c2specElems : List PdfElement :=
  [PdfElement.string ⟨['1', '.', ' ', 'A'], Style.new⟩,
    PdfElement.string ⟨['\n'], Style.new⟩,
    PdfElement.string ⟨['1', '.', ' ', 'B'], Style.new⟩,
    PdfElement.string ⟨['\n'], Style.new⟩]

/-! ### Shared helper lemmas -/

theorem modifyLastString_append_string (f : StyledString → StyledString)
    (es : List PdfElement) (ss : StyledString) :
    modifyLastString f (es ++ [PdfElement.string ss]) = es ++ [PdfElement.string (f ss)] := by
  induction es with
  | nil => rfl
  | cons e es ih =>
    cases es with
    | nil => cases e <;> rfl
    | cons e2 es2 => simpa [modifyLastString] using ih

theorem modifyLastString_append_image (f : StyledString → StyledString)
    (es : List PdfElement) (p : Str) :
    modifyLastString f (es ++ [PdfElement.image p]) = es ++ [PdfElement.image p] := by
  induction es with
  | nil => rfl
  | cons e es ih =>
    cases es with
    | nil => cases e <;> rfl
    | cons e2 es2 => simpa [modifyLastString] using ih

theorem lastString?_append_string (es : List PdfElement) (ss : StyledString) :
    lastString? (es ++ [PdfElement.string ss]) = some ss := by
  induction es with
  | nil => rfl
  | cons e es ih =>
    cases es with
    | nil => cases e <;> rfl
    | cons e2 es2 => simpa [lastString?] using ih

theorem set_heading_append_string (es : List PdfElement) (ss : StyledString) (n : Nat) :
    set_heading (es ++ [PdfElement.string ss]) n
      = es ++ [PdfElement.string ⟨ss.s, ss.style.set_font_size n⟩] :=
  modifyLastString_append_string _ es ss

theorem set_heading_append_image (es : List PdfElement) (p : Str) (n : Nat) :
    set_heading (es ++ [PdfElement.image p]) n = es ++ [PdfElement.image p] :=
  modifyLastString_append_image _ es p

theorem setMarker_append_string (es : List PdfElement) (ss : StyledString) (pfx : Str) :
    setMarker (es ++ [PdfElement.string ss]) pfx
      = es ++ [PdfElement.string ⟨insertAfterLastNewline ss.s pfx, ss.style⟩] :=
  modifyLastString_append_string _ es ss

theorem setMarker_append_image (es : List PdfElement) (p : Str) (pfx : Str) :
    setMarker (es ++ [PdfElement.image p]) pfx = es ++ [PdfElement.image p] :=
  modifyLastString_append_image _ es p

/-- When the string has no line break the splice lands at its very start. -/
theorem insertAfterLastNewline_of_no_newline (s pfx : Str) (h : '\n' ∉ s) :
    insertAfterLastNewline s pfx = pfx ++ s := by
  have htw : s.reverse.takeWhile (fun c => c != '\n') = s.reverse := by
    apply List.takeWhile_eq_self_iff.mpr
    intro c hc
    have : c ∈ s := List.mem_reverse.mp hc
    simp only [bne_iff_ne, ne_eq]
    intro hcn
    exact h (hcn ▸ this)
  have hdw : s.reverse.dropWhile (fun c => c != '\n') = [] := by
    apply List.dropWhile_eq_nil_iff.mpr
    intro c hc
    have : c ∈ s := List.mem_reverse.mp hc
    simp only [bne_iff_ne, ne_eq]
    intro hcn
    exact h (hcn ▸ this)
  simp [insertAfterLastNewline, htw, hdw]

theorem dropWhile_eq_nil_or_head_false (p : Char → Bool) (l : Str) :
    l.dropWhile p = [] ∨ ∃ c t, l.dropWhile p = c :: t ∧ p c = false := by
  induction l with
  | nil => exact Or.inl rfl
  | cons c t ih =>
    rw [List.dropWhile_cons]
    by_cases h : p c = true
    · simpa [h] using ih
    · exact Or.inr ⟨c, t, by simp [h], by simpa using h⟩

/-- The splice point of `insertAfterLastNewline`: the string splits as
`front ++ back` with `back` free of line breaks and `front` empty or
ending in a line break, and the marker lands between the two. -/
theorem insertAfterLastNewline_decomp (s pfx : Str) :
    ∃ front back : Str,
      s = front ++ back ∧
        insertAfterLastNewline s pfx = front ++ pfx ++ back ∧
        '\n' ∉ back ∧ (front = [] ∨ front.getLast? = some '\n') := by
  refine ⟨(s.reverse.dropWhile (fun c => c != '\n')).reverse,
    (s.reverse.takeWhile (fun c => c != '\n')).reverse, ?_, rfl, ?_, ?_⟩
  · have h1 : List.takeWhile (fun c => c != '\n') s.reverse
          ++ List.dropWhile (fun c => c != '\n') s.reverse = s.reverse :=
      List.takeWhile_append_dropWhile _ _
    calc s = s.reverse.reverse := (s.reverse_reverse).symm
      _ = (List.takeWhile (fun c => c != '\n') s.reverse
            ++ List.dropWhile (fun c => c != '\n') s.reverse).reverse := by rw [h1]
      _ = _ := by rw [List.reverse_append]
  · intro hmem
    have : '\n' ∈ s.reverse.takeWhile (fun c => c != '\n') := List.mem_reverse.mp hmem
    have := List.mem_takeWhile_imp this
    simp at this
  · rcases dropWhile_eq_nil_or_head_false (fun c => c != '\n') s.reverse with h | ⟨c, t, h, hc⟩
    · left
      rw [h]
      rfl
    · right
      rw [h, List.getLast?_reverse]
      simp at hc
      simp [hc]

theorem splitNl_ne_nil (s : Str) : splitNl s ≠ [] := by
  cases s with
  | nil => simp [splitNl]
  | cons c rest =>
    simp only [splitNl]
    cases splitNl rest with
    | nil => simp
    | cons l ls =>
      by_cases h : c = '\n' <;> simp [h]

theorem splitNl_length (s : Str) : (splitNl s).length = s.count '\n' + 1 := by
  induction s with
  | nil => rfl
  | cons c rest ih =>
    rcases hs : splitNl rest with _ | ⟨l, ls⟩
    · exact absurd hs (splitNl_ne_nil rest)
    · by_cases h : c = '\n'
      · simp [splitNl, hs, h, List.count_cons, ← ih]
      · have hne : ¬('\n' = c) := fun hh => h hh.symm
        simp [splitNl, hs, h, List.count_cons, ← ih, hne]

theorem foldl_emitLine_shape (sty : Style) (lines : List Str) :
    ∀ (doc : List Block) (para : List StyledString),
      (lines.foldl (emitLine sty) (doc, para)).1
          ++ [Block.paragraph (lines.foldl (emitLine sty) (doc, para)).2]
        = doc ++ Block.paragraph para :: lines.map (fun l => Block.paragraph [⟨l, sty⟩]) := by
  induction lines with
  | nil => intro doc para; simp
  | cons l ls ih =>
    intro doc para
    simp only [List.foldl_cons, List.map_cons]
    rw [emitLine, ih]
    simp

/-! ### Theorems for the claims -/

/-- C1: the crate documentation ("Only inserts are rendered. Deletes and
retains are parsed but ignored.") and the claim say a Delete operation
produces no output element, but `write_to_pdf` extracts content from
`Insert`, `Delete` and `Retain` alike: a document holding the single op
`{"delete": "hello"}` renders the paragraph "hello". -/
theorem c1_delete_produces_output :
    DeltaPdf.write_to_pdf
        ⟨⟨[⟨Change.delete (DeltaType.string ['h', 'e', 'l', 'l', 'o']), none⟩]⟩, none⟩ []
      = ([Block.paragraph [⟨['h', 'e', 'l', 'l', 'o'], Style.new⟩]], Except.ok ()) := rfl

/-- C2 counterexample: on the document `[insert "A", insert "\n" ordered,
insert "B", insert "\n" ordered]` the code emits ordinal 2 for "B", while
the claimed canonical policy (inspect the second-to-last element, which
is the `"\n"` element and does not contain `"1. "`) resets to 1 and emits
"1. B": the two element sequences differ. -/
theorem c2_counterexample :
    DeltaPdf.buildElements ⟨⟨c2ops⟩, none⟩ = Except.ok c2codeElems ∧
      spec_buildElements ⟨⟨c2ops⟩, none⟩ = Except.ok c2specElems ∧
      c2codeElems ≠ c2specElems :=
  ⟨rfl, rfl, by decide⟩

/-- C3 counterexample: on a last emitted TextRun with content "a\nb", the
bullet marker is spliced in after the internal line break, giving
"a\n• b", not at the very start of the element's content as claimed. -/
theorem c3_counterexample :
    setMarker [PdfElement.string ⟨['a', '\n', 'b'], Style.new⟩] bulletMarker
        = [PdfElement.string ⟨['a', '\n', '•', ' ', 'b'], Style.new⟩] ∧
      ['a', '\n', '•', ' ', 'b'] ≠ bulletMarker ++ ['a', '\n', 'b'] :=
  ⟨rfl, by decide⟩

/-- C4 counterexample: a text insert containing a line break is stored as
one single TextRun element holding the full text, line break included —
no construction-time splitting into segments takes place. -/
theorem c4_counterexample :
    DeltaPdf.buildElements ⟨⟨[mkTextOp ['a', '\n', 'b']]⟩, none⟩
        = Except.ok [PdfElement.string ⟨['a', '\n', 'b'], Style.new⟩] ∧
      '\n' ∈ (['a', '\n', 'b'] : Str) :=
  ⟨rfl, by decide⟩

/-- C5 counterexample: in `[insert "X", insert "\n" ordered, insert "Y",
insert "\n" ordered]` a non-list operation (`insert "Y"`) stands between
the two ordered items, yet the code continues the run and emits "2. Y"
instead of the claimed restart at "1. Y". -/
theorem c5_counterexample :
    DeltaPdf.buildElements ⟨⟨[mkTextOp ['X'], nlOrderedOp, mkTextOp ['Y'], nlOrderedOp]⟩, none⟩
        = Except.ok
            [PdfElement.string ⟨['1', '.', ' ', 'X'], Style.new⟩,
              PdfElement.string ⟨['\n'], Style.new⟩,
              PdfElement.string ⟨['2', '.', ' ', 'Y'], Style.new⟩,
              PdfElement.string ⟨['\n'], Style.new⟩] ∧
      (['2', '.', ' ', 'Y'] : Str) ≠ ['1', '.', ' ', 'Y'] :=
  ⟨rfl, by decide⟩

/-- C6: `header: 1` sets the font size of the most recently emitted
element to 18 and `header: 2` sets it to 16, provided that element is a
TextRun; header level 0 and every level `k + 3` are no-ops; when the
element sequence is empty or ends with an image, `set_heading` is a
no-op; and on the concrete document `[insert "Title", insert "\n"
{header: 1}]` the first emitted paragraph is "Title" at font size 18. -/
theorem c6_header_directive :
    (∀ acc : BuildState × Style × Bool,
        processAttribute acc (Attribute.header 1)
          = ({ acc.1 with pdf_elements := set_heading acc.1.pdf_elements 18 }, acc.2.1, acc.2.2)) ∧
      (∀ acc : BuildState × Style × Bool,
        processAttribute acc (Attribute.header 2)
          = ({ acc.1 with pdf_elements := set_heading acc.1.pdf_elements 16 }, acc.2.1, acc.2.2)) ∧
      (∀ acc : BuildState × Style × Bool, processAttribute acc (Attribute.header 0) = acc) ∧
      (∀ (acc : BuildState × Style × Bool) (k : Nat),
        processAttribute acc (Attribute.header (k + 3)) = acc) ∧
      (∀ (es : List PdfElement) (ss : StyledString) (n : Nat),
        set_heading (es ++ [PdfElement.string ss]) n
          = es ++ [PdfElement.string ⟨ss.s, ss.style.set_font_size n⟩]) ∧
      (∀ n, set_heading [] n = []) ∧
      (∀ (es : List PdfElement) (p : Str) (n : Nat),
        set_heading (es ++ [PdfElement.image p]) n = es ++ [PdfElement.image p]) ∧
      DeltaPdf.write_to_pdf
          ⟨⟨[mkTextOp ['T', 'i', 't', 'l', 'e'],
              ⟨Change.insert (DeltaType.string ['\n']), some [Attribute.header 1]⟩]⟩, none⟩ []
        = ([Block.paragraph
              [⟨['T', 'i', 't', 'l', 'e'], Style.new.set_font_size 18⟩, ⟨[], Style.new⟩],
            Block.paragraph [⟨[], Style.new⟩]], Except.ok ()) :=
  ⟨fun _ => rfl, fun _ => rfl, fun _ => rfl, fun _ _ => rfl,
    fun es ss n => set_heading_append_string es ss n,
    fun _ => rfl,
    fun es p n => set_heading_append_image es p n,
    rfl⟩

/-- C3 amended: a list-marker directive splices the marker into the last
emitted TextRun immediately after its last internal line break (at the
very start only when the content holds no line break); when the element
sequence is empty or ends with an image it is a no-op, and the element
currently being built is never modified (markers are applied before the
current op's own element is pushed). -/
theorem c3_amended_marker_splice :
    (∀ (es : List PdfElement) (ss : StyledString) (p : Str),
        setMarker (es ++ [PdfElement.string ss]) p
          = es ++ [PdfElement.string ⟨insertAfterLastNewline ss.s p, ss.style⟩]) ∧
      (∀ p : Str, setMarker [] p = []) ∧
      (∀ (es : List PdfElement) (ip p : Str),
        setMarker (es ++ [PdfElement.image ip]) p = es ++ [PdfElement.image ip]) ∧
      (∀ s p : Str, ∃ front back : Str,
        s = front ++ back ∧
          insertAfterLastNewline s p = front ++ p ++ back ∧
          '\n' ∉ back ∧ (front = [] ∨ front.getLast? = some '\n')) :=
  ⟨setMarker_append_string, fun _ => rfl, setMarker_append_image,
    insertAfterLastNewline_decomp⟩

/-- C4 amended: a text insert is stored at construction time as one
single TextRun holding the full text, line breaks included, with the
computed style; splitting happens in the emission pass, where an insert
with k line breaks yields k+1 paragraph segments, the first joining the
open paragraph and every subsequent one starting a new paragraph with
the same style. -/
theorem c4_amended_emission_splitting (s : Str) :
    DeltaPdf.buildElements ⟨⟨[mkTextOp s]⟩, none⟩
        = Except.ok [PdfElement.string ⟨s, Style.new⟩] ∧
      DeltaPdf.write_to_pdf ⟨⟨[mkTextOp s]⟩, none⟩ []
          = ((splitNl s).map fun seg => Block.paragraph [⟨seg, Style.new⟩], Except.ok ()) ∧
      (splitNl s).length = s.count '\n' + 1 := by
  have hbuild : DeltaPdf.buildElements ⟨⟨[mkTextOp s]⟩, none⟩
      = Except.ok [PdfElement.string ⟨s, Style.new⟩] := by
    simp [DeltaPdf.buildElements, buildLoop, processOp, mkTextOp]
  refine ⟨hbuild, ?_, splitNl_length s⟩
  rw [DeltaPdf.write_to_pdf, hbuild]
  rcases hs : splitNl s with _ | ⟨line, rest⟩
  · exact absurd hs (splitNl_ne_nil s)
  · simp only [emitElements, List.foldl_cons, List.foldl_nil, emitStep, hs]
    have := foldl_emitLine_shape Style.new rest [] [⟨line, Style.new⟩]
    simp only [List.nil_append] at this
    simp [this]

/-- C2 amended: before emitting an ordinal the code inspects the *last*
emitted element (the one that receives the marker): when it is a TextRun,
the counter resets to 1 exactly when bit 1 of the rolling `previous_lists`
history is 0 (the op two positions back was not an ordered item) or that
element's text contains a line break; when the element list is empty or
ends with an image no reset occurs; the marker of the resulting ordinal
`n` is applied and the counter becomes `(n + 1) % 2^32`. No second-to-last
element and no literal `"<n-1>. "` marker are ever consulted. -/
theorem c2_amended_reset_policy (st : BuildState) (sty : Style) (item : Bool) :
    ∃ n : Nat,
      processAttribute (st, sty, item) (Attribute.list ListType.ordered)
          = (⟨setMarker st.pdf_elements (ordinalMarker n), (n + 1) % u32Mod,
              st.previous_lists⟩, sty, true) ∧
        n = (match lastString? st.pdf_elements with
             | some last =>
               if st.previous_lists / 2 % 2 == 0 || last.s.contains '\n' then 1
               else st.ordered_list_index
             | none => st.ordered_list_index) := by
  cases hl : lastString? st.pdf_elements with
  | none =>
    refine ⟨st.ordered_list_index, ?_, by simp⟩
    simp [processAttribute, hl]
  | some last =>
    by_cases hc : st.previous_lists / 2 % 2 = 0 ∨ '\n' ∈ last.s
    · refine ⟨1, ?_, by simp [hl, hc]⟩
      simp [processAttribute, hl, hc]
    · refine ⟨st.ordered_list_index, ?_, by simp [hl, hc]⟩
      simp [processAttribute, hl, hc]

/-- C7 counterexample: an image operation whose URL yields no path
segments fails with ImageUrlError even though no base directory is
configured — the URL check precedes the base-directory check, so the
claim that every image op without a configured base directory fails with
ImagePathNotSet is false. -/
theorem c7_counterexample :
    (DeltaPdf.write_to_pdf
          ⟨⟨[⟨Change.insert (DeltaType.image ⟨⟨none⟩⟩), none⟩]⟩, none⟩ []).2
        = Except.error DeltaPdfError.imageUrlError ∧
      (Except.error DeltaPdfError.imageUrlError : Except DeltaPdfError Unit)
        ≠ Except.error DeltaPdfError.imagePathNotSet :=
  ⟨rfl, by simp⟩

/-- C7 amended: with base directory "./images" an image URL with segments
["a", "b", "pic.png"] resolves to "./images/pic.png"; an image op whose
URL yields path segments fails with ImagePathNotSet when no base
directory is configured; an image op whose URL yields no path segments
(or an empty segment list) fails with ImageUrlError regardless of the
base-directory configuration. -/
theorem c7_amended_image_resolution :
    DeltaPdf.write_to_pdf
          ⟨⟨[⟨Change.insert
                (DeltaType.image ⟨⟨some [['a'], ['b'], ['p', 'i', 'c', '.', 'p', 'n', 'g']]⟩⟩),
              none⟩]⟩,
            some ['.', '/', 'i', 'm', 'a', 'g', 'e', 's']⟩ []
        = ([Block.image
              (['.', '/', 'i', 'm', 'a', 'g', 'e', 's'] ++ '/' :: ['p', 'i', 'c', '.', 'p', 'n', 'g']) 1,
            Block.paragraph []], Except.ok ()) ∧
      (∀ (segs : List Str) (name : Str),
        DeltaPdf.write_to_pdf
            ⟨⟨[⟨Change.insert (DeltaType.image ⟨⟨some (segs ++ [name])⟩⟩), none⟩]⟩, none⟩ []
          = ([], Except.error DeltaPdfError.imagePathNotSet)) ∧
      (∀ base : Option Str,
        DeltaPdf.write_to_pdf
            ⟨⟨[⟨Change.insert (DeltaType.image ⟨⟨none⟩⟩), none⟩]⟩, base⟩ []
          = ([], Except.error DeltaPdfError.imageUrlError)) ∧
      (∀ base : Option Str,
        DeltaPdf.write_to_pdf
            ⟨⟨[⟨Change.insert (DeltaType.image ⟨⟨some []⟩⟩), none⟩]⟩, base⟩ []
          = ([], Except.error DeltaPdfError.imageUrlError)) := by
  refine ⟨rfl, ?_, fun _ => rfl, fun _ => rfl⟩
  intro segs name
  simp [DeltaPdf.write_to_pdf, DeltaPdf.buildElements, buildLoop, processOp,
    List.getLast?_concat]

/-- C9: conversion is all-or-nothing — whenever `write_to_pdf` returns an
error, the document is exactly as it was handed in (no paragraph and no
image block was pushed), and the error arose during element construction,
before the emission pass starts. -/
theorem c9_all_or_nothing (d : DeltaPdf) (document : List Block) (e : DeltaPdfError)
    (h : (d.write_to_pdf document).2 = Except.error e) :
    (d.write_to_pdf document).1 = document ∧ d.buildElements = Except.error e := by
  cases hb : d.buildElements with
  | error e2 =>
    rw [DeltaPdf.write_to_pdf, hb] at h
    simp only [Except.error.injEq] at h
    rw [DeltaPdf.write_to_pdf, hb, h]
    exact ⟨rfl, rfl⟩
  | ok elems =>
    rw [DeltaPdf.write_to_pdf, hb] at h
    simp at h

/-- Witness for C9 at a concrete erroring document: an image op with an
unconfigured base directory leaves the pre-existing document untouched. -/
theorem c9_witness :
    ((DeltaPdf.mk ⟨[⟨Change.insert (DeltaType.image ⟨⟨none⟩⟩), none⟩]⟩ none).write_to_pdf
          [Block.paragraph []]).1 = [Block.paragraph []] ∧
      (DeltaPdf.mk ⟨[⟨Change.insert (DeltaType.image ⟨⟨none⟩⟩), none⟩]⟩ none).buildElements
        = Except.error DeltaPdfError.imageUrlError :=
  c9_all_or_nothing _ _ DeltaPdfError.imageUrlError rfl

/-- C10: on success the pushes are exactly the emission walk of the built
elements followed by one final paragraph push; a document with no
operations pushes exactly one (empty) final paragraph; a document whose
last text ends in a line break still pushes a final paragraph holding
the empty trailing segment. -/
theorem c10_trailing_paragraph :
    (∀ (d : DeltaPdf) (document : List Block) (elems : List PdfElement),
        d.buildElements = Except.ok elems →
          d.write_to_pdf document
            = (document ++ (emitElements elems).1 ++ [Block.paragraph (emitElements elems).2],
                Except.ok ())) ∧
      (∀ (ip : Option Str) (document : List Block),
        DeltaPdf.write_to_pdf ⟨⟨[]⟩, ip⟩ document
          = (document ++ [Block.paragraph []], Except.ok ())) ∧
      DeltaPdf.write_to_pdf ⟨⟨[mkTextOp ['a', '\n']]⟩, none⟩ []
        = ([Block.paragraph [⟨['a'], Style.new⟩], Block.paragraph [⟨[], Style.new⟩]],
            Except.ok ()) := by
  refine ⟨?_, ?_, rfl⟩
  · intro d document elems h
    rw [DeltaPdf.write_to_pdf, h]
  · intro ip document
    show (document ++ [] ++ [Block.paragraph []], Except.ok ())
      = (document ++ [Block.paragraph []], Except.ok ())
    simp

/-- Witness for C10 at the empty document. -/
theorem c10_witness :
    DeltaPdf.write_to_pdf ⟨⟨[]⟩, none⟩ []
      = ([] ++ (emitElements []).1 ++ [Block.paragraph (emitElements []).2], Except.ok ()) :=
  c10_trailing_paragraph.1 ⟨⟨[]⟩, none⟩ [] [] rfl

/-! ### Emission-pass concatenation lemmas (for C8) -/

/-- A plain TextRun element with the default style. -/
def plainElem (t : Str) : PdfElement := PdfElement.string ⟨t, Style.new⟩

theorem joinedNl_append_single (xs : List Str) (y : Str) (h : xs ≠ []) :
    joinedNl (xs ++ [y]) = joinedNl xs ++ '\n' :: y := by
  induction xs with
  | nil => exact absurd rfl h
  | cons x xs ih =>
    cases xs with
    | nil => rfl
    | cons x2 xs2 =>
      have h2 := ih (by simp)
      calc joinedNl ((x :: x2 :: xs2) ++ [y])
          = x ++ '\n' :: joinedNl ((x2 :: xs2) ++ [y]) := rfl
        _ = x ++ '\n' :: (joinedNl (x2 :: xs2) ++ '\n' :: y) := by rw [h2]
        _ = (x ++ '\n' :: joinedNl (x2 :: xs2)) ++ '\n' :: y := by simp

theorem joinedNl_last_extend (xs : List Str) (t u : Str) :
    joinedNl (xs ++ [t ++ u]) = joinedNl (xs ++ [t]) ++ u := by
  cases xs with
  | nil => rfl
  | cons x xs =>
    rw [joinedNl_append_single _ _ (by simp), joinedNl_append_single _ _ (by simp)]
    simp

theorem joinedNl_cons_map (x : Str) (xs : List Str) :
    joinedNl (x :: xs) = x ++ (xs.map fun l => '\n' :: l).flatten := by
  induction xs generalizing x with
  | nil => simp [joinedNl]
  | cons y ys ih =>
    simp only [joinedNl, List.map_cons, List.flatten_cons]
    rw [ih y]
    simp

theorem joinedNl_splitNl (s : Str) : joinedNl (splitNl s) = s := by
  induction s with
  | nil => rfl
  | cons c rest ih =>
    rcases hs : splitNl rest with _ | ⟨l, ls⟩
    · exact absurd hs (splitNl_ne_nil rest)
    · rw [hs] at ih
      by_cases h : c = '\n'
      · subst h


        rw [show splitNl ('\n' :: rest) = [] :: l :: ls by rw [splitNl, hs]; simp]
        show [] ++ '\n' :: joinedNl (l :: ls) = '\n' :: rest
        rw [ih]
        rfl
      · rw [show splitNl (c :: rest) = (c :: l) :: ls by rw [splitNl, hs]; simp [h]]
        cases ls with
        | nil =>
          have hl : l = rest := ih
          show c :: l = c :: rest
          rw [hl]
        | cons l2 ls2 =>
          have hl : l ++ '\n' :: joinedNl (l2 :: ls2) = rest := ih
          show (c :: l) ++ '\n' :: joinedNl (l2 :: ls2) = c :: rest
          rw [List.cons_append, hl]

theorem splitNl_no_newline (s : Str) : ∀ seg ∈ splitNl s, '\n' ∉ seg := by
  induction s with
  | nil =>
    intro seg hseg
    simp only [splitNl, List.mem_singleton] at hseg
    subst hseg
    simp
  | cons c rest ih =>
    intro seg hseg
    rcases hs : splitNl rest with _ | ⟨l, ls⟩
    · exact absurd hs (splitNl_ne_nil rest)
    · rw [hs] at ih
      by_cases h : c = '\n'
      · rw [show splitNl (c :: rest) = [] :: l :: ls by rw [splitNl, hs]; simp [h]] at hseg
        rcases List.mem_cons.mp hseg with h1 | h1
        · subst h1; simp
        · exact ih seg h1
      · rw [show splitNl (c :: rest) = (c :: l) :: ls by rw [splitNl, hs]; simp [h]] at hseg
        rcases List.mem_cons.mp hseg with h1 | h1
        · subst h1
          intro hmem
          rcases List.mem_cons.mp hmem with h2 | h2
          · exact h h2.symm
          · exact ih l (List.mem_cons_self l ls) h2
        · exact ih seg (List.mem_cons_of_mem _ h1)

theorem paraText_append (ps : List StyledString) (sp : StyledString) :
    paraText (ps ++ [sp]) = paraText ps ++ sp.s := by
  simp [paraText]

theorem accJoined_push_span (acc : List Block × List StyledString) (line : Str) (sty : Style) :
    accJoined (acc.1, acc.2 ++ [⟨line, sty⟩]) = accJoined acc ++ line := by
  simp only [accJoined, paraText_append]
  exact joinedNl_last_extend _ _ _

theorem accJoined_emitLine (sty : Style) (acc : List Block × List StyledString) (l : Str) :
    accJoined (emitLine sty acc l) = accJoined acc ++ '\n' :: l := by
  simp only [accJoined, emitLine, List.map_append, List.map_cons, List.map_nil, blockText]
  have h1 : paraText [⟨l, sty⟩] = l := by simp [paraText]
  rw [h1]
  exact joinedNl_append_single _ _ (by simp)

theorem accJoined_foldl_emitLine (sty : Style) (lines : List Str) :
    ∀ acc : List Block × List StyledString,
      accJoined (lines.foldl (emitLine sty) acc)
        = accJoined acc ++ (lines.map fun l => '\n' :: l).flatten := by
  induction lines with
  | nil => intro acc; simp
  | cons l ls ih =>
    intro acc
    simp only [List.foldl_cons, List.map_cons, List.flatten_cons]
    rw [ih, accJoined_emitLine]
    simp

theorem accJoined_emitStep_string (acc : List Block × List StyledString) (ss : StyledString) :
    accJoined (emitStep acc (PdfElement.string ss)) = accJoined acc ++ ss.s := by
  rcases hs : splitNl ss.s with _ | ⟨line, rest⟩
  · exact absurd hs (splitNl_ne_nil ss.s)
  · simp only [emitStep, hs]
    rw [accJoined_foldl_emitLine]
    rw [accJoined_push_span acc line ss.style]
    rw [List.append_assoc]
    rw [← joinedNl_cons_map]
    rw [← hs, joinedNl_splitNl]

theorem accJoined_fold_plain (ts : List Str) :
    ∀ acc : List Block × List StyledString,
      accJoined ((ts.map plainElem).foldl emitStep acc) = accJoined acc ++ ts.flatten := by
  induction ts with
  | nil => intro acc; simp
  | cons t ts ih =>
    intro acc
    simp only [List.map_cons, List.foldl_cons, List.flatten_cons, plainElem]
    rw [ih]
    have h2 : accJoined (emitStep acc (PdfElement.string ⟨t, Style.new⟩)) = accJoined acc ++ t :=
      accJoined_emitStep_string acc ⟨t, Style.new⟩
    rw [h2, List.append_assoc]

theorem buildLoop_plain (ip : Option Str) (ts : List Str) :
    ∀ st : BuildState,
      ∃ pl2, buildLoop ip st (ts.map mkTextOp)
        = Except.ok ⟨st.pdf_elements ++ ts.map plainElem, st.ordered_list_index, pl2⟩ := by
  induction ts with
  | nil =>
    intro st
    exact ⟨st.previous_lists, by simp [buildLoop]⟩
  | cons t ts ih =>
    intro st
    have hstep : processOp ip st (mkTextOp t)
        = Except.ok ⟨st.pdf_elements ++ [plainElem t], st.ordered_list_index,
            (st.previous_lists * 2 + 0) % u32Mod⟩ := by
      simp [processOp, mkTextOp, plainElem]
    obtain ⟨pl2, h⟩ := ih ⟨st.pdf_elements ++ [plainElem t], st.ordered_list_index,
      (st.previous_lists * 2 + 0) % u32Mod⟩
    refine ⟨pl2, ?_⟩
    simp only [List.map_cons, buildLoop, hstep]
    rw [h]
    simp

theorem joined_count (xs : List Str) (hne : xs ≠ []) (hnl : ∀ x ∈ xs, '\n' ∉ x) :
    xs.length = (joinedNl xs).count '\n' + 1 := by
  induction xs with
  | nil => exact absurd rfl hne
  | cons x xs ih =>
    cases xs with
    | nil =>
      have : (joinedNl [x]).count '\n' = 0 :=
        List.count_eq_zero.mpr (hnl x (by simp))
      simp [this]
    | cons y ys =>
      have hx : x.count '\n' = 0 := List.count_eq_zero.mpr (hnl x (by simp))
      have ihh := ih (by simp) (fun z hz => hnl z (List.mem_cons_of_mem _ hz))
      simp only [List.length_cons] at ihh ⊢
      have hcount : (joinedNl (x :: y :: ys)).count '\n'
          = (joinedNl (y :: ys)).count '\n' + 1 := by
        show (x ++ '\n' :: joinedNl (y :: ys)).count '\n'
          = (joinedNl (y :: ys)).count '\n' + 1
        simp [List.count_append, List.count_cons, hx]
      rw [hcount]
      omega

theorem foldl_emitLine_good (sty : Style) (lines : List Str) :
    ∀ acc : List Block × List StyledString,
      (∀ lin ∈ lines, '\n' ∉ lin) →
      (∀ b ∈ acc.1, ∃ ps, b = Block.paragraph ps ∧ '\n' ∉ blockText b) →
      '\n' ∉ paraText acc.2 →
      (∀ b ∈ (lines.foldl (emitLine sty) acc).1,
          ∃ ps, b = Block.paragraph ps ∧ '\n' ∉ blockText b) ∧
        '\n' ∉ paraText (lines.foldl (emitLine sty) acc).2 := by
  induction lines with
  | nil => intro acc _ hacc hpara; exact ⟨hacc, hpara⟩
  | cons lin ls ih =>
    intro acc hlines hacc hpara
    simp only [List.foldl_cons]
    apply ih
    · intro z hz; exact hlines z (List.mem_cons_of_mem _ hz)
    · intro b hb
      rcases List.mem_append.mp hb with h1 | h1
      · exact hacc b h1
      · rcases List.mem_singleton.mp h1 with rfl
        exact ⟨acc.2, rfl, by simpa [blockText] using hpara⟩
    · have : '\n' ∉ lin := hlines lin (List.mem_cons_self _ _)
      simp [emitLine, paraText, this]

theorem emitStep_string_good (acc : List Block × List StyledString) (ss : StyledString)
    (hacc : ∀ b ∈ acc.1, ∃ ps, b = Block.paragraph ps ∧ '\n' ∉ blockText b)
    (hpara : '\n' ∉ paraText acc.2) :
    (∀ b ∈ (emitStep acc (PdfElement.string ss)).1,
        ∃ ps, b = Block.paragraph ps ∧ '\n' ∉ blockText b) ∧
      '\n' ∉ paraText (emitStep acc (PdfElement.string ss)).2 := by
  rcases hs : splitNl ss.s with _ | ⟨line, rest⟩
  · exact absurd hs (splitNl_ne_nil ss.s)
  · simp only [emitStep, hs]
    apply foldl_emitLine_good
    · intro z hz
      exact splitNl_no_newline ss.s z (by rw [hs]; exact List.mem_cons_of_mem _ hz)
    · exact hacc
    · have hline : '\n' ∉ line :=
        splitNl_no_newline ss.s line (by rw [hs]; exact List.mem_cons_self _ _)
      rw [paraText_append]
      intro hmem
      rcases List.mem_append.mp hmem with h1 | h1
      · exact hpara h1
      · exact hline h1

theorem emit_strings_good (elems : List PdfElement) :
    ∀ acc : List Block × List StyledString,
      (∀ e ∈ elems, ∃ ss, e = PdfElement.string ss) →
      (∀ b ∈ acc.1, ∃ ps, b = Block.paragraph ps ∧ '\n' ∉ blockText b) →
      '\n' ∉ paraText acc.2 →
      (∀ b ∈ (elems.foldl emitStep acc).1,
          ∃ ps, b = Block.paragraph ps ∧ '\n' ∉ blockText b) ∧
        '\n' ∉ paraText (elems.foldl emitStep acc).2 := by
  induction elems with
  | nil => intro acc _ hacc hpara; exact ⟨hacc, hpara⟩
  | cons e es ih =>
    intro acc helems hacc hpara
    obtain ⟨ss, rfl⟩ := helems e (List.mem_cons_self _ _)
    simp only [List.foldl_cons]
    have hstep := emitStep_string_good acc ss hacc hpara
    exact ih _ (fun z hz => helems z (List.mem_cons_of_mem _ hz)) hstep.1 hstep.2

/-- C8: for a document of plain-text inserts with no attributes, the
emission consists solely of paragraph blocks whose texts contain no line
break; joining the paragraph texts with a line break restores the
concatenation of the insert strings in input order (so each input line
break is exactly one paragraph boundary), and the number of emitted
paragraphs is the number of input line breaks plus one. -/
theorem c8_plain_text_concat (ts : List Str) (ip : Option Str) :
    (DeltaPdf.write_to_pdf ⟨⟨ts.map mkTextOp⟩, ip⟩ []).2 = Except.ok () ∧
      (∀ b ∈ (DeltaPdf.write_to_pdf ⟨⟨ts.map mkTextOp⟩, ip⟩ []).1,
        ∃ ps, b = Block.paragraph ps ∧ '\n' ∉ blockText b) ∧
      joinedNl ((DeltaPdf.write_to_pdf ⟨⟨ts.map mkTextOp⟩, ip⟩ []).1.map blockText)
          = ts.flatten ∧
      (DeltaPdf.write_to_pdf ⟨⟨ts.map mkTextOp⟩, ip⟩ []).1.length
          = ts.flatten.count '\n' + 1 := by
  obtain ⟨pl2, hloop⟩ := buildLoop_plain ip ts ⟨[], 1, 0⟩
  have hbuild : DeltaPdf.buildElements ⟨⟨ts.map mkTextOp⟩, ip⟩
      = Except.ok (ts.map plainElem) := by
    simp only [DeltaPdf.buildElements]
    rw [hloop]
    simp
  have hw : DeltaPdf.write_to_pdf ⟨⟨ts.map mkTextOp⟩, ip⟩ []
      = ([] ++ (emitElements (ts.map plainElem)).1
          ++ [Block.paragraph (emitElements (ts.map plainElem)).2], Except.ok ()) := by
    rw [DeltaPdf.write_to_pdf, hbuild]
  have hgood := emit_strings_good (ts.map plainElem) ([], [])
    (by intro e he; obtain ⟨t, _, rfl⟩ := List.mem_map.mp he; exact ⟨⟨t, Style.new⟩, rfl⟩)
    (by intro b hb; simp at hb)
    (by simp [paraText])
  have hout : ∀ b ∈ (DeltaPdf.write_to_pdf ⟨⟨ts.map mkTextOp⟩, ip⟩ []).1,
      ∃ ps, b = Block.paragraph ps ∧ '\n' ∉ blockText b := by
    rw [hw]
    intro b hb
    simp only [List.nil_append] at hb
    rcases List.mem_append.mp hb with h1 | h1
    · exact hgood.1 b (by simpa [emitElements] using h1)
    · rcases List.mem_singleton.mp h1 with rfl
      refine ⟨(emitElements (ts.map plainElem)).2, rfl, ?_⟩
      simpa [blockText, emitElements] using hgood.2
  have hjoined : joinedNl ((DeltaPdf.write_to_pdf ⟨⟨ts.map mkTextOp⟩, ip⟩ []).1.map blockText)
      = ts.flatten := by
    rw [hw]
    have hfold := accJoined_fold_plain ts ([], [])
    have hinit : accJoined (([], []) : List Block × List StyledString) = [] := by
      simp [accJoined, paraText, joinedNl]
    rw [hinit] at hfold
    simp only [List.nil_append] at hfold ⊢
    simp only [List.map_append, List.map_cons, List.map_nil, blockText]
    simpa [accJoined, emitElements] using hfold
  refine ⟨by rw [hw], hout, hjoined, ?_⟩
  have hlen : (DeltaPdf.write_to_pdf ⟨⟨ts.map mkTextOp⟩, ip⟩ []).1.length
      = ((DeltaPdf.write_to_pdf ⟨⟨ts.map mkTextOp⟩, ip⟩ []).1.map blockText).length := by
    simp
  rw [hlen,
    joined_count ((DeltaPdf.write_to_pdf ⟨⟨ts.map mkTextOp⟩, ip⟩ []).1.map blockText)
      (by rw [hw]; simp)
      (by
        intro x hx
        obtain ⟨b, hb, rfl⟩ := List.mem_map.mp hx
        obtain ⟨ps, _, hnl⟩ := hout b hb
        exact hnl),
    hjoined]

/-! ### Ordered-run numbering lemmas (for C5) -/

theorem buildLoop_ordered_run (ts : List Str) :
    ∀ (es : List PdfElement) (n pl : Nat),
      1 ≤ n → n + ts.length < u32Mod → (∀ t ∈ ts, '\n' ∉ t) →
      (pl % 2 = 1 ∨ n = 1) →
      ∃ pl2, buildLoop none ⟨es, n, pl⟩ (orderedPairOps ts)
        = Except.ok ⟨es ++ orderedChunk n ts, n + ts.length, pl2⟩ := by
  induction ts with
  | nil =>
    intro es n pl _ _ _ _
    exact ⟨pl, by simp [buildLoop, orderedPairOps, orderedChunk]⟩
  | cons t ts ih =>
    intro es n pl h1 h2 h3 h4
    have htnl : '\n' ∉ t := h3 t (List.mem_cons_self _ _)
    have hstep1 : processOp none (⟨es, n, pl⟩ : BuildState) (mkTextOp t)
        = Except.ok ⟨es ++ [PdfElement.string ⟨t, Style.new⟩], n, (pl * 2) % u32Mod⟩ := by
      simp [processOp, mkTextOp]
    have hlast : lastString? (es ++ [PdfElement.string ⟨t, Style.new⟩]) = some ⟨t, Style.new⟩ :=
      lastString?_append_string es ⟨t, Style.new⟩
    have hbitparity : ((pl * 2) % u32Mod) / 2 % 2 = pl % 2 := by
      simp only [u32Mod]
      omega
    have hmark : insertAfterLastNewline t (ordinalMarker n) = ordinalMarker n ++ t :=
      insertAfterLastNewline_of_no_newline t _ htnl
    have hmod : (n + 1) % u32Mod = n + 1 := by
      apply Nat.mod_eq_of_lt
      simp only [List.length_cons] at h2
      omega
    have hattr : processAttribute
        ((⟨es ++ [PdfElement.string ⟨t, Style.new⟩], n, (pl * 2) % u32Mod⟩ : BuildState),
          Style.new, false) (Attribute.list ListType.ordered)
        = (⟨es ++ [PdfElement.string ⟨ordinalMarker n ++ t, Style.new⟩],
            n + 1, (pl * 2) % u32Mod⟩, Style.new, true) := by
      rcases h4 with hodd | hn1
      · have hc : ¬(((pl * 2) % u32Mod) / 2 % 2 = 0 ∨ '\n' ∈ t) := by
          rw [hbitparity]
          intro hcon
          rcases hcon with h | h
          · omega
          · exact htnl h
        simp [processAttribute, hlast, hc, setMarker_append_string, hmark, hmod]
      · subst hn1
        by_cases hc : ((pl * 2) % u32Mod) / 2 % 2 = 0 ∨ '\n' ∈ t
        · simp [processAttribute, hlast, hc, setMarker_append_string, hmark, hmod]
        · simp [processAttribute, hlast, hc, setMarker_append_string, hmark, hmod]
    have hstep2 : processOp none
        (⟨es ++ [PdfElement.string ⟨t, Style.new⟩], n, (pl * 2) % u32Mod⟩ : BuildState)
        nlOrderedOp
        = Except.ok ⟨(es ++ [PdfElement.string ⟨ordinalMarker n ++ t, Style.new⟩])
              ++ [PdfElement.string ⟨['\n'], Style.new⟩],
            n + 1, (((pl * 2) % u32Mod) * 2 + 1) % u32Mod⟩ := by
      simp only [processOp, nlOrderedOp, List.foldl_cons, List.foldl_nil, hattr]
      simp
    have hodd2 : ((((pl * 2) % u32Mod) * 2 + 1) % u32Mod) % 2 = 1 := by
      simp only [u32Mod]
      omega
    obtain ⟨pl2, hrec⟩ := ih
      ((es ++ [PdfElement.string ⟨ordinalMarker n ++ t, Style.new⟩])
        ++ [PdfElement.string ⟨['\n'], Style.new⟩])
      (n + 1) ((((pl * 2) % u32Mod) * 2 + 1) % u32Mod)
      (by omega)
      (by simp only [List.length_cons] at h2; omega)
      (fun z hz => h3 z (List.mem_cons_of_mem _ hz))
      (Or.inl hodd2)
    refine ⟨pl2, ?_⟩
    have hfinal : ((es ++ [PdfElement.string ⟨ordinalMarker n ++ t, Style.new⟩])
          ++ [PdfElement.string ⟨['\n'], Style.new⟩]) ++ orderedChunk (n + 1) ts
        = es ++ orderedChunk n (t :: ts) := by
      rw [orderedChunk]
      simp
    have hlen2 : n + 1 + ts.length = n + (t :: ts).length := by
      simp only [List.length_cons]
      omega
    rw [orderedPairOps]
    simp only [buildLoop, hstep1, hstep2]
    rw [hrec, hfinal, hlen2]

theorem buildLoop_adjacent_cont (ts : List Str) :
    ∀ (es : List PdfElement) (u : Str) (k pl : Nat),
      1 ≤ k → k + ts.length < u32Mod → '\n' ∉ u → (∀ t ∈ ts, '\n' ∉ t) →
      pl % 2 = 1 → pl / 2 % 2 = 1 →
      ∃ pl2, buildLoop none ⟨es ++ [PdfElement.string ⟨u, Style.new⟩], k, pl⟩
          (adjacentOrderedOps ts)
        = Except.ok ⟨es ++ adjacentChunk k u ts, k + ts.length, pl2⟩ := by
  induction ts with
  | nil =>
    intro es u k pl _ _ _ _ _ _
    exact ⟨pl, by simp [buildLoop, adjacentOrderedOps, adjacentChunk]⟩
  | cons t ts ih =>
    intro es u k pl h1 h2 hu h3 hb0 hb1
    have htnl : '\n' ∉ t := h3 t (List.mem_cons_self _ _)
    have hlast : lastString? (es ++ [PdfElement.string ⟨u, Style.new⟩]) = some ⟨u, Style.new⟩ :=
      lastString?_append_string es ⟨u, Style.new⟩
    have hmark : insertAfterLastNewline u (ordinalMarker k) = ordinalMarker k ++ u :=
      insertAfterLastNewline_of_no_newline u _ hu
    have hmod : (k + 1) % u32Mod = k + 1 := by
      apply Nat.mod_eq_of_lt
      simp only [List.length_cons] at h2
      omega
    have hc : ¬(pl / 2 % 2 = 0 ∨ '\n' ∈ u) := by
      intro hcon
      rcases hcon with h | h
      · omega
      · exact hu h
    have hattr : processAttribute
        ((⟨es ++ [PdfElement.string ⟨u, Style.new⟩], k, pl⟩ : BuildState),
          Style.new, false) (Attribute.list ListType.ordered)
        = (⟨es ++ [PdfElement.string ⟨ordinalMarker k ++ u, Style.new⟩],
            k + 1, pl⟩, Style.new, true) := by
      simp [processAttribute, hlast, hc, setMarker_append_string, hmark, hmod]
    have hstep : processOp none
        (⟨es ++ [PdfElement.string ⟨u, Style.new⟩], k, pl⟩ : BuildState) (ordTextOp t)
        = Except.ok ⟨(es ++ [PdfElement.string ⟨ordinalMarker k ++ u, Style.new⟩])
              ++ [PdfElement.string ⟨t, Style.new⟩],
            k + 1, (pl * 2 + 1) % u32Mod⟩ := by
      simp only [processOp, ordTextOp, List.foldl_cons, List.foldl_nil, hattr]
      simp
    have hb0' : ((pl * 2 + 1) % u32Mod) % 2 = 1 := by
      simp only [u32Mod]
      omega
    have hb1' : ((pl * 2 + 1) % u32Mod) / 2 % 2 = 1 := by
      simp only [u32Mod]
      omega
    obtain ⟨pl2, hrec⟩ := ih
      (es ++ [PdfElement.string ⟨ordinalMarker k ++ u, Style.new⟩])
      t (k + 1) ((pl * 2 + 1) % u32Mod)
      (by omega)
      (by simp only [List.length_cons] at h2; omega)
      htnl
      (fun z hz => h3 z (List.mem_cons_of_mem _ hz))
      hb0' hb1'
    refine ⟨pl2, ?_⟩
    have hfinal : (es ++ [PdfElement.string ⟨ordinalMarker k ++ u, Style.new⟩])
          ++ adjacentChunk (k + 1) t ts
        = es ++ adjacentChunk k u (t :: ts) := by
      rw [adjacentChunk]
      simp
    have hlen2 : k + 1 + ts.length = k + (t :: ts).length := by
      simp only [List.length_cons]
      omega
    rw [show adjacentOrderedOps (t :: ts) = ordTextOp t :: adjacentOrderedOps ts from rfl]
    simp only [buildLoop, hstep]
    rw [hrec, hfinal, hlen2]

/-- C5 amended: (alternating) in the pattern where each op carrying
`list: "ordered"` (an insert of `"\n"`) immediately follows a
line-break-free text op, a run of N pairs produces markers "1. ", ...,
"N. " in order — the single non-list text op between consecutive ordered
ops does not break the run; (adjacent) two consecutive ordered items with
no other op between them also continue the same run: a contiguous run of
N adjacent line-break-free text ops each carrying `list: "ordered"`
produces markers "1. ", ..., "(N-1). ", each landing on the text of the
preceding op of the run, and the run's final op receives no marker. -/
theorem c5_amended_run_numbering :
    (∀ ts : List Str, ts.length + 1 < u32Mod → (∀ t ∈ ts, '\n' ∉ t) →
        DeltaPdf.buildElements ⟨⟨orderedPairOps ts⟩, none⟩
          = Except.ok (orderedChunk 1 ts)) ∧
      (∀ (t1 : Str) (ts : List Str), ts.length + 2 < u32Mod → '\n' ∉ t1 →
        (∀ t ∈ ts, '\n' ∉ t) →
        DeltaPdf.buildElements ⟨⟨adjacentOrderedOps (t1 :: ts)⟩, none⟩
          = Except.ok (adjacentChunk 1 t1 ts)) := by
  constructor
  · intro ts hlen hnl
    obtain ⟨pl2, hloop⟩ := buildLoop_ordered_run ts [] 1 0 le_rfl (by omega) hnl (Or.inr rfl)
    simp only [DeltaPdf.buildElements]
    rw [hloop]
    simp
  · intro t1 ts hlen ht1 hnl
    have h1m : 1 % u32Mod = 1 := Nat.mod_eq_of_lt (by norm_num [u32Mod])
    have h2m : 2 % u32Mod = 2 := Nat.mod_eq_of_lt (by norm_num [u32Mod])
    have h3m : 3 % u32Mod = 3 := Nat.mod_eq_of_lt (by norm_num [u32Mod])
    have hstep1 : processOp none (⟨[], 1, 0⟩ : BuildState) (ordTextOp t1)
        = Except.ok ⟨[PdfElement.string ⟨t1, Style.new⟩], 2, 1⟩ := by
      simp [processOp, ordTextOp, processAttribute, lastString?, setMarker,
        modifyLastString, h1m, h2m]
    cases ts with
    | nil =>
      simp only [DeltaPdf.buildElements, adjacentOrderedOps, List.map_cons, List.map_nil]
      simp only [buildLoop, hstep1]
      simp [adjacentChunk]
    | cons t2 rest =>
      have hmark1 : insertAfterLastNewline t1 (ordinalMarker 1) = ordinalMarker 1 ++ t1 :=
        insertAfterLastNewline_of_no_newline t1 _ ht1
      have hstep2 : processOp none
          (⟨[PdfElement.string ⟨t1, Style.new⟩], 2, 1⟩ : BuildState) (ordTextOp t2)
          = Except.ok ⟨[PdfElement.string ⟨ordinalMarker 1 ++ t1, Style.new⟩]
                ++ [PdfElement.string ⟨t2, Style.new⟩], 2, 3⟩ := by
        simp [processOp, ordTextOp, processAttribute, lastString?, setMarker,
          modifyLastString, hmark1, h2m, h3m]
      obtain ⟨pl2, hrec⟩ := buildLoop_adjacent_cont rest
        [PdfElement.string ⟨ordinalMarker 1 ++ t1, Style.new⟩] t2 2 3
        (by omega)
        (by simp only [List.length_cons] at hlen; omega)
        (hnl t2 (List.mem_cons_self _ _))
        (fun z hz => hnl z (List.mem_cons_of_mem _ hz))
        (by norm_num) (by norm_num)
      simp only [adjacentOrderedOps] at hrec
      simp only [DeltaPdf.buildElements, adjacentOrderedOps, List.map_cons]
      simp only [buildLoop, hstep1, hstep2]
      rw [hrec]
      simp [adjacentChunk]

/-- Witness for C5 amended: the alternating run "A", "B", "C" receives
markers "1. ", "2. ", "3. ", and the adjacent run "x", "y", "z" receives
markers "1. " on "x" and "2. " on "y" with "z" left bare. -/
theorem c5_amended_witness :
    DeltaPdf.buildElements ⟨⟨orderedPairOps [['A'], ['B'], ['C']]⟩, none⟩
        = Except.ok (orderedChunk 1 [['A'], ['B'], ['C']]) ∧
      DeltaPdf.buildElements ⟨⟨adjacentOrderedOps [['x'], ['y'], ['z']]⟩, none⟩
        = Except.ok (adjacentChunk 1 ['x'] [['y'], ['z']]) :=
  ⟨c5_amended_run_numbering.1 [['A'], ['B'], ['C']] (by norm_num [u32Mod]) (by decide),
    c5_amended_run_numbering.2 ['x'] [['y'], ['z']] (by norm_num [u32Mod]) (by decide)
      (by decide)⟩

end QuillDeltaPdf
